import Mathlib

/-!
Verification of the container/string core of `src/systemctl-types.c`.

Modelling conventions (shallow embedding):
* A C `str_t` is `Option (List Nat)`: `none` models a NULL pointer, `some l`
  models a NUL-terminated heap string whose byte contents (terminator
  excluded, all bytes nonzero) are `l`.
* libc `strcmp` is modelled sign-normalized (it is only ever used through
  its sign in the source).
* A dictionary (`str_dict_t`, `str_list_dict_t`, `str_list_dict_dict_t`,
  `ptr_dict_t`) is the list of its `(key, value)` entries; `size` is the
  list length and a NULL `data` pointer coincides with the empty list for
  every state reachable through the operations.
* `ssize_t` index arithmetic in the binary searches is carried out on `Int`.
  Every division reachable from the entry points has non-negative operands,
  where Lean `Int` division agrees with C `ssize_t` division.
* Memory management (`free`, `realloc`, ownership transfer) has no
  observable effect on the abstract contents and is not modelled.
-/

/-- A C `str_t`: `none` is the NULL string, `some l` a string with bytes `l`. -/
abbrev Str := Option (List Nat)

/-- libc `strcmp`, sign-normalized: lexicographic byte comparison where a
proper prefix (earlier NUL terminator) sorts first. -/
def strcmp : List Nat → List Nat → Int
  | [], [] => 0
  | [], _ :: _ => -1
  | _ :: _, [] => 1
  | a :: as, b :: bs => if a < b then -1 else if b < a then 1 else strcmp as bs

/-- `str_cmp` (systemctl-types.c:70-83): NULL handling first, then `strcmp`.
A NULL string sorts after any present string. -/
def str_cmp : Str → Str → Int
  | some _, none => -1
  | none, some _ => 1
  | none, none => 0
  | some s1, some s2 => strcmp s1 s2

/-- `str_equal` (systemctl-types.c:992-996): `! str_cmp(str1, str2)`. -/
def str_equal (a b : Str) : Bool := str_cmp a b == 0

/-- `self->data[i].key` for an index known (at every reachable state) to be
in bounds; out-of-bounds reads default to the NULL string. -/
def keyAt (keys : List Str) (i : Nat) : Str := keys.getD i none

/-- Strict key order used for the sortedness invariant. -/
def strLt (a b : Str) : Prop := str_cmp a b < 0

instance : DecidableRel strLt := fun a b => by unfold strLt; infer_instance

theorem strcmp_self (a : List Nat) : strcmp a a = 0 := by
  induction a with
  | nil => rfl
  | cons x xs ih => simp [strcmp, ih]

theorem strcmp_eq_zero_iff (a b : List Nat) : strcmp a b = 0 ↔ a = b := by
  induction a generalizing b with
  | nil => cases b <;> simp [strcmp]
  | cons x xs ih =>
    cases b with
    | nil => simp [strcmp]
    | cons y ys =>
      by_cases hxy : x < y
      · simp [strcmp, hxy]
        omega
      · by_cases hyx : y < x
        · simp [strcmp, hxy, hyx]
          omega
        · have hxyeq : x = y := by omega
          simp [strcmp, hxy, hyx, ih, hxyeq]

theorem strcmp_trichotomy (a b : List Nat) :
    strcmp a b = -1 ∨ strcmp a b = 0 ∨ strcmp a b = 1 := by
  induction a generalizing b with
  | nil => cases b <;> simp [strcmp]
  | cons x xs ih =>
    cases b with
    | nil => simp [strcmp]
    | cons y ys =>
      by_cases hxy : x < y
      · simp [strcmp, hxy]
      · by_cases hyx : y < x
        · simp [strcmp, hxy, hyx]
        · simpa [strcmp, hxy, hyx] using ih ys

theorem strcmp_swap (a b : List Nat) : strcmp b a = -strcmp a b := by
  induction a generalizing b with
  | nil => cases b <;> simp [strcmp]
  | cons x xs ih =>
    cases b with
    | nil => simp [strcmp]
    | cons y ys =>
      by_cases hxy : x < y
      · have : ¬ y < x := by omega
        simp [strcmp, hxy, this]
      · by_cases hyx : y < x
        · simp [strcmp, hxy, hyx]
        · simp [strcmp, hxy, hyx, ih]

theorem strcmp_trans_neg {a b c : List Nat}
    (h1 : strcmp a b < 0) (h2 : strcmp b c < 0) : strcmp a c < 0 := by
  induction a generalizing b c with
  | nil =>
    cases b with
    | nil => simpa [strcmp] using h1
    | cons y ys =>
      cases c with
      | nil => simp [strcmp] at h2
      | cons z zs => simp [strcmp]
  | cons x xs ih =>
    cases b with
    | nil => simp [strcmp] at h1
    | cons y ys =>
      cases c with
      | nil => simp [strcmp] at h2
      | cons z zs =>
        by_cases hxy : x < y
        · by_cases hyz : y < z
          · have hxz : x < z := by omega
            simp [strcmp, hxz]
          · by_cases hzy : z < y
            · simp [strcmp, hyz, hzy] at h2
            · have hxz : x < z := by omega
              simp [strcmp, hxz]
        · by_cases hyx : y < x
          · simp [strcmp, hxy, hyx] at h1
          · have hxyeq : x = y := by omega
            subst hxyeq
            by_cases hyz : x < z
            · simp [strcmp, hyz]
            · by_cases hzy : z < x
              · simp [strcmp, hyz, hzy] at h2
              · simp [strcmp, hxy, hyx] at h1
                simp [strcmp, hyz, hzy] at h2 ⊢
                exact ih h1 h2

theorem str_cmp_self (a : Str) : str_cmp a a = 0 := by
  cases a <;> simp [str_cmp, strcmp_self]

theorem str_cmp_eq_zero_iff (a b : Str) : str_cmp a b = 0 ↔ a = b := by
  cases a <;> cases b <;> simp [str_cmp, strcmp_eq_zero_iff]

theorem str_cmp_trichotomy (a b : Str) :
    str_cmp a b = -1 ∨ str_cmp a b = 0 ∨ str_cmp a b = 1 := by
  cases a <;> cases b <;> simp [str_cmp, strcmp_trichotomy]

theorem str_cmp_swap (a b : Str) : str_cmp b a = -str_cmp a b := by
  cases a <;> cases b <;> simp only [str_cmp] <;>
    first | decide | exact strcmp_swap _ _

theorem strLt_trans {a b c : Str} (h1 : strLt a b) (h2 : strLt b c) : strLt a c := by
  unfold strLt at *
  cases a <;> cases b <;> cases c <;> simp only [str_cmp] at h1 h2 ⊢
  all_goals first | omega | exact strcmp_trans_neg h1 h2

theorem strLt_irrefl (a : Str) : ¬ strLt a a := by
  unfold strLt
  simp [str_cmp_self]

theorem strLt_asymm {a b : Str} (h : strLt a b) : ¬ strLt b a := by
  intro h2
  exact strLt_irrefl a (strLt_trans h h2)

theorem strLt_ne {a b : Str} (h : strLt a b) : a ≠ b := by
  intro he
  subst he
  exact strLt_irrefl a h

/-- Loop body of `ptr_dict_find` (systemctl-types.c:719-759); the identical
loop also appears verbatim in `ptr_list_dict_find` (systemctl-types.c:761-801).
The loop state is `(a, c, e)`; `fuel` is an upper bound on the remaining
iterations (the entry point passes `size + 1`, which is proved sufficient,
so the `fuel = 0` arm is never reached from `ptr_dict_find`). -/
def ptr_dict_find_loop (keys : List Str) (key : Str) : Nat → Int → Int → Int → Int
  | 0, _, _, _ => -1
  | fuel + 1, a, c, e =>
    let comp := str_cmp key (keyAt keys c.toNat)
    if comp = 0 then c
    else if comp < 0 then
      let b0 := a + (c - a) / 2
      let b := if b0 = c then b0 - 1 else b0
      if b < a then -1
      else ptr_dict_find_loop keys key fuel a b c
    else
      let d0 := c + (e - c) / 2
      let d := if d0 = c then d0 + 1 else d0
      if e ≤ d then -1
      else ptr_dict_find_loop keys key fuel c d e

/-- `ptr_dict_find` (systemctl-types.c:719-759): exact-match binary search,
returning the index of an entry with an equal key, or -1.  A NULL `data`
pointer and `size == 0` both correspond to the empty entry list. -/
def ptr_dict_find (keys : List Str) (key : Str) : Int :=
  if keys.length = 0 then -1
  else ptr_dict_find_loop keys key (keys.length + 1) 0 ((keys.length : Int) / 2)
    (keys.length : Int)

/-- Loop body of `ptr_dict_find_pos` (systemctl-types.c:806-849); the identical
loop also appears verbatim in `ptr_list_dict_find_pos` (systemctl-types.c:851-894).
Same stepping as `ptr_dict_find_loop` but the not-found exits return the
insertion position `c` resp. `c + 1` instead of -1. -/
def ptr_dict_find_pos_loop (keys : List Str) (key : Str) : Nat → Int → Int → Int → Int
  | 0, _, _, _ => 0
  | fuel + 1, a, c, e =>
    let comp := str_cmp key (keyAt keys c.toNat)
    if comp = 0 then c
    else if comp < 0 then
      let b0 := a + (c - a) / 2
      let b := if b0 = c then b0 - 1 else b0
      if b < a then c
      else ptr_dict_find_pos_loop keys key fuel a b c
    else
      let d0 := c + (e - c) / 2
      let d := if d0 = c then d0 + 1 else d0
      if e ≤ d then c + 1
      else ptr_dict_find_pos_loop keys key fuel c d e

/-- `ptr_dict_find_pos` (systemctl-types.c:806-849): insertion-position
binary search; returns 0 for an empty map. -/
def ptr_dict_find_pos (keys : List Str) (key : Str) : Int :=
  if keys.length = 0 then 0
  else ptr_dict_find_pos_loop keys key (keys.length + 1) 0 ((keys.length : Int) / 2)
    (keys.length : Int)

/-- Reference function, from the spec's words: the index at which `key`
would appear in the sorted key sequence — the number of leading keys
strictly below `key` (the index of the equal key if present, otherwise
the index of the first strictly greater key). -/
def insertionIndex (keys : List Str) (key : Str) : Nat :=
  match keys with
  | [] => 0
  | k0 :: rest => if str_cmp k0 key < 0 then insertionIndex rest key + 1 else 0

/-- Reference function, from the spec's words: a plain linear search for an
entry whose key compares equal, returning its index or -1. -/
def linearFind (keys : List Str) (key : Str) : Int :=
  match keys with
  | [] => -1
  | k0 :: rest =>
    if str_cmp k0 key = 0 then 0
    else
      let r := linearFind rest key
      if r < 0 then -1 else r + 1

theorem keyAt_mem (keys : List Str) (i : Nat) (h : i < keys.length) :
    keyAt keys i ∈ keys := by
  unfold keyAt
  rw [List.getD_eq_getElem keys none h]
  exact List.getElem_mem h

theorem keyAt_cons_succ (k0 : Str) (rest : List Str) (i : Nat) :
    keyAt (k0 :: rest) (i + 1) = keyAt rest i := rfl

theorem keyAt_cons_zero (k0 : Str) (rest : List Str) :
    keyAt (k0 :: rest) 0 = k0 := rfl

/-- Strict sortedness transfers to arbitrary index pairs. -/
theorem pairwise_keyAt {keys : List Str} (h : keys.Pairwise strLt)
    {i j : Nat} (hij : i < j) (hj : j < keys.length) :
    strLt (keyAt keys i) (keyAt keys j) := by
  induction keys generalizing i j with
  | nil => simp at hj
  | cons k0 rest ih =>
    rcases List.pairwise_cons.mp h with ⟨hhead, htail⟩
    cases i with
    | zero =>
      cases j with
      | zero => omega
      | succ m =>
        rw [keyAt_cons_zero, keyAt_cons_succ]
        exact hhead _ (keyAt_mem rest m (by simpa using hj))
    | succ n =>
      cases j with
      | zero => omega
      | succ m =>
        rw [keyAt_cons_succ, keyAt_cons_succ]
        exact ih htail (by omega) (by simpa using hj)

theorem insertionIndex_le_length (keys : List Str) (key : Str) :
    insertionIndex keys key ≤ keys.length := by
  induction keys with
  | nil => simp [insertionIndex]
  | cons k0 rest ih =>
    by_cases h : str_cmp k0 key < 0 <;> simp [insertionIndex, h] <;> omega

/-- Keys strictly before the insertion index compare below the probe key. -/
theorem insertionIndex_before (keys : List Str) (key : Str) (i : Nat)
    (h : i < insertionIndex keys key) : strLt (keyAt keys i) key := by
  induction keys generalizing i with
  | nil => simp [insertionIndex] at h
  | cons k0 rest ih =>
    by_cases hc : str_cmp k0 key < 0
    · cases i with
      | zero => exact hc
      | succ n =>
        rw [keyAt_cons_succ]
        exact ih n (by simpa [insertionIndex, hc] using h)
    · simp [insertionIndex, hc] at h

/-- The key at the insertion index (when it exists) does not compare below
the probe key. -/
theorem insertionIndex_at (keys : List Str) (key : Str)
    (h : insertionIndex keys key < keys.length) :
    ¬ strLt (keyAt keys (insertionIndex keys key)) key := by
  induction keys with
  | nil => simp at h
  | cons k0 rest ih =>
    by_cases hc : str_cmp k0 key < 0
    · have hidx : insertionIndex (k0 :: rest) key = insertionIndex rest key + 1 := by
        simp [insertionIndex, hc]
      rw [hidx, keyAt_cons_succ]
      refine ih ?_
      rw [hidx] at h
      simpa using h
    · have hidx : insertionIndex (k0 :: rest) key = 0 := by
        simp [insertionIndex, hc]
      rw [hidx, keyAt_cons_zero]
      exact hc

/-- Characterization used to discharge each exit of the search loops. -/
theorem insertionIndex_eq_of (keys : List Str) (key : Str) (n : Nat)
    (hn : n ≤ keys.length)
    (hlt : ∀ i, i < n → strLt (keyAt keys i) key)
    (hge : n < keys.length → ¬ strLt (keyAt keys n) key) :
    insertionIndex keys key = n := by
  induction keys generalizing n with
  | nil =>
    simp only [List.length_nil, Nat.le_zero] at hn
    simp [insertionIndex, hn]
  | cons k0 rest ih =>
    cases n with
    | zero =>
      have hpos : 0 < (k0 :: rest).length := by simp
      have : ¬ str_cmp k0 key < 0 := hge hpos
      simp [insertionIndex, this]
    | succ m =>
      have h0 : str_cmp k0 key < 0 := hlt 0 (by omega)
      have := ih m (by simpa using hn)
        (fun i hi => hlt (i + 1) (by omega))
        (fun hm => by simpa [keyAt_cons_succ] using hge (by simpa using hm))
      simp [insertionIndex, h0, this]

theorem linearFind_eq_neg_one (keys : List Str) (key : Str)
    (h : ∀ i, i < keys.length → str_cmp (keyAt keys i) key ≠ 0) :
    linearFind keys key = -1 := by
  induction keys with
  | nil => rfl
  | cons k0 rest ih =>
    have h0 : str_cmp k0 key ≠ 0 := h 0 (by simp)
    have hr : linearFind rest key = -1 :=
      ih (fun i hi => h (i + 1) (by simpa using hi))
    simp [linearFind, h0, hr]

theorem linearFind_eq_of (keys : List Str) (key : Str) (n : Nat)
    (hn : n < keys.length)
    (h0 : str_cmp (keyAt keys n) key = 0)
    (hbefore : ∀ i, i < n → str_cmp (keyAt keys i) key ≠ 0) :
    linearFind keys key = (n : Int) := by
  induction keys generalizing n with
  | nil => simp at hn
  | cons k0 rest ih =>
    cases n with
    | zero =>
      rw [keyAt_cons_zero] at h0
      simp [linearFind, h0]
    | succ m =>
      have hk0 : str_cmp k0 key ≠ 0 := hbefore 0 (by omega)
      have hr : linearFind rest key = (m : Int) :=
        ih m (by simpa using hn) (by simpa [keyAt_cons_succ] using h0)
          (fun i hi => hbefore (i + 1) (by omega))
      simp only [linearFind, hk0, if_false, hr]
      rw [if_neg (by omega : ¬ (m : Int) < 0)]
      push_cast
      ring

/-- Main loop invariant proof for the insertion-position search: on a
strictly sorted key array, from any loop state satisfying the invariants
(index bounds, `c` the midpoint of `[a, e)`, keys below `a` smaller than the
probe, keys at or above `e` greater, enough fuel), the loop computes the
insertion index. -/
theorem find_pos_loop_eq (keys : List Str) (key : Str) (hs : keys.Pairwise strLt) :
    ∀ (fuel : Nat) (a c e : Int),
    0 ≤ a → a ≤ c → c < e → e ≤ (keys.length : Int) →
    c = a + (e - a) / 2 →
    e - a < (fuel : Int) →
    (∀ i : Nat, (i : Int) < a → strLt (keyAt keys i) key) →
    (∀ i : Nat, e ≤ (i : Int) → i < keys.length → strLt key (keyAt keys i)) →
    ptr_dict_find_pos_loop keys key fuel a c e = ((insertionIndex keys key : Nat) : Int) := by
  intro fuel
  induction fuel with
  | zero =>
    intro a c e h0a hac hce hel hmid hfuel hI3 hI2
    exfalso
    omega
  | succ f ih =>
    intro a c e h0a hac hce hel hmid hfuel hI3 hI2
    have hc0 : 0 ≤ c := le_trans h0a hac
    have hcn : ((c.toNat : Nat) : Int) = c := Int.toNat_of_nonneg hc0
    have hnlen : c.toNat < keys.length := by omega
    simp only [ptr_dict_find_pos_loop]
    rcases lt_trichotomy (str_cmp key (keyAt keys c.toNat)) 0 with hcomp | hcomp | hcomp
    · -- probe key is smaller than the pivot
      rw [if_neg (show ¬ str_cmp key (keyAt keys c.toNat) = 0 by omega), if_pos hcomp]
      by_cases hca : c = a
      · -- range collapsed: exit returning c
        rw [if_pos (show (if a + (c - a) / 2 = c then a + (c - a) / 2 - 1
          else a + (c - a) / 2) < a by omega)]
        have hidx : insertionIndex keys key = c.toNat := by
          refine insertionIndex_eq_of keys key c.toNat (by omega)
            (fun i hi => hI3 i (by omega)) (fun _ => ?_)
          intro hlt
          unfold strLt at hlt
          have := str_cmp_swap key (keyAt keys c.toNat)
          omega
        rw [hidx, hcn]
      · -- continue on the left half
        rw [if_neg (show ¬ (if a + (c - a) / 2 = c then a + (c - a) / 2 - 1
          else a + (c - a) / 2) < a by omega)]
        rw [show (if a + (c - a) / 2 = c then a + (c - a) / 2 - 1
          else a + (c - a) / 2) = a + (c - a) / 2 by omega]
        refine ih a (a + (c - a) / 2) c h0a (by omega) (by omega) (by omega) rfl
          (by omega) hI3 ?_
        intro i hci hil
        by_cases hieq : (i : Int) = c
        · have : i = c.toNat := by omega
          rw [this]
          exact hcomp
        · have hgt : c.toNat < i := by omega
          exact strLt_trans hcomp (pairwise_keyAt hs hgt hil)
    · -- probe key equals the pivot: exit returning c
      rw [if_pos hcomp]
      have hkey : key = keyAt keys c.toNat := (str_cmp_eq_zero_iff _ _).mp hcomp
      have hidx : insertionIndex keys key = c.toNat := by
        refine insertionIndex_eq_of keys key c.toNat (by omega) (fun i hi => ?_)
          (fun _ => ?_)
        · rw [hkey]
          exact pairwise_keyAt hs hi hnlen
        · intro hlt
          unfold strLt at hlt
          have := str_cmp_swap key (keyAt keys c.toNat)
          omega
      rw [hidx, hcn]
    · -- probe key is bigger than the pivot
      rw [if_neg (show ¬ str_cmp key (keyAt keys c.toNat) = 0 by omega),
        if_neg (show ¬ str_cmp key (keyAt keys c.toNat) < 0 by omega)]
      have hpivot : strLt (keyAt keys c.toNat) key := by
        unfold strLt
        have := str_cmp_swap key (keyAt keys c.toNat)
        omega
      by_cases hec : e = c + 1
      · -- range collapsed: exit returning c + 1
        rw [if_pos (show e ≤ (if c + (e - c) / 2 = c then c + (e - c) / 2 + 1
          else c + (e - c) / 2) by omega)]
        have hidx : insertionIndex keys key = c.toNat + 1 := by
          refine insertionIndex_eq_of keys key (c.toNat + 1) (by omega)
            (fun i hi => ?_) (fun hlen => ?_)
          · by_cases hieq : i = c.toNat
            · rw [hieq]; exact hpivot
            · exact strLt_trans (pairwise_keyAt hs (by omega) hnlen) hpivot
          · exact strLt_asymm (hI2 (c.toNat + 1) (by omega) hlen)
        rw [hidx]
        push_cast
        omega
      · -- continue on the right half
        rw [if_neg (show ¬ e ≤ (if c + (e - c) / 2 = c then c + (e - c) / 2 + 1
          else c + (e - c) / 2) by omega)]
        rw [show (if c + (e - c) / 2 = c then c + (e - c) / 2 + 1
          else c + (e - c) / 2) = c + (e - c) / 2 by omega]
        refine ih c (c + (e - c) / 2) e hc0 (by omega) (by omega) hel rfl
          (by omega) ?_ hI2
        intro i hic
        exact strLt_trans (pairwise_keyAt hs (show i < c.toNat by omega) hnlen) hpivot

/-- Main loop invariant proof for the exact-match search: same invariants as
`find_pos_loop_eq`; the loop computes the result of a linear search. -/
theorem find_loop_eq (keys : List Str) (key : Str) (hs : keys.Pairwise strLt) :
    ∀ (fuel : Nat) (a c e : Int),
    0 ≤ a → a ≤ c → c < e → e ≤ (keys.length : Int) →
    c = a + (e - a) / 2 →
    e - a < (fuel : Int) →
    (∀ i : Nat, (i : Int) < a → strLt (keyAt keys i) key) →
    (∀ i : Nat, e ≤ (i : Int) → i < keys.length → strLt key (keyAt keys i)) →
    ptr_dict_find_loop keys key fuel a c e = linearFind keys key := by
  intro fuel
  induction fuel with
  | zero =>
    intro a c e h0a hac hce hel hmid hfuel hI3 hI2
    exfalso
    omega
  | succ f ih =>
    intro a c e h0a hac hce hel hmid hfuel hI3 hI2
    have hc0 : 0 ≤ c := le_trans h0a hac
    have hcn : ((c.toNat : Nat) : Int) = c := Int.toNat_of_nonneg hc0
    have hnlen : c.toNat < keys.length := by omega
    simp only [ptr_dict_find_loop]
    rcases lt_trichotomy (str_cmp key (keyAt keys c.toNat)) 0 with hcomp | hcomp | hcomp
    · -- probe key is smaller than the pivot
      rw [if_neg (show ¬ str_cmp key (keyAt keys c.toNat) = 0 by omega), if_pos hcomp]
      by_cases hca : c = a
      · -- range collapsed: the key is nowhere, exit returning -1
        rw [if_pos (show (if a + (c - a) / 2 = c then a + (c - a) / 2 - 1
          else a + (c - a) / 2) < a by omega)]
        refine (linearFind_eq_neg_one keys key fun i hil => ?_).symm
        rcases lt_trichotomy (i : Int) c with hic | hic | hic
        · have := hI3 i (by omega)
          unfold strLt at this
          omega
        · have : i = c.toNat := by omega
          rw [this]
          have := str_cmp_swap key (keyAt keys c.toNat)
          omega
        · have hlt : strLt key (keyAt keys i) :=
            strLt_trans (by unfold strLt; omega)
              (pairwise_keyAt hs (show c.toNat < i by omega) hil)
          unfold strLt at hlt
          have := str_cmp_swap key (keyAt keys i)
          omega
      · -- continue on the left half
        rw [if_neg (show ¬ (if a + (c - a) / 2 = c then a + (c - a) / 2 - 1
          else a + (c - a) / 2) < a by omega)]
        rw [show (if a + (c - a) / 2 = c then a + (c - a) / 2 - 1
          else a + (c - a) / 2) = a + (c - a) / 2 by omega]
        refine ih a (a + (c - a) / 2) c h0a (by omega) (by omega) (by omega) rfl
          (by omega) hI3 ?_
        intro i hci hil
        by_cases hieq : (i : Int) = c
        · have : i = c.toNat := by omega
          rw [this]
          exact hcomp
        · have hgt : c.toNat < i := by omega
          exact strLt_trans hcomp (pairwise_keyAt hs hgt hil)
    · -- probe key equals the pivot: exit returning c
      rw [if_pos hcomp]
      have hkey : key = keyAt keys c.toNat := (str_cmp_eq_zero_iff _ _).mp hcomp
      have hfind : linearFind keys key = ((c.toNat : Nat) : Int) := by
        refine linearFind_eq_of keys key c.toNat hnlen ?_ (fun i hi => ?_)
        · have := str_cmp_swap key (keyAt keys c.toNat)
          omega
        · have := pairwise_keyAt hs hi hnlen
          rw [← hkey] at this
          unfold strLt at this
          omega
      rw [hfind, hcn]
    · -- probe key is bigger than the pivot
      rw [if_neg (show ¬ str_cmp key (keyAt keys c.toNat) = 0 by omega),
        if_neg (show ¬ str_cmp key (keyAt keys c.toNat) < 0 by omega)]
      have hpivot : strLt (keyAt keys c.toNat) key := by
        unfold strLt
        have := str_cmp_swap key (keyAt keys c.toNat)
        omega
      by_cases hec : e = c + 1
      · -- range collapsed: the key is nowhere, exit returning -1
        rw [if_pos (show e ≤ (if c + (e - c) / 2 = c then c + (e - c) / 2 + 1
          else c + (e - c) / 2) by omega)]
        refine (linearFind_eq_neg_one keys key fun i hil => ?_).symm
        rcases lt_trichotomy (i : Int) e with hie | hie | hie
        · have hile : i ≤ c.toNat := by omega
          have hlt : strLt (keyAt keys i) key := by
            rcases Nat.lt_or_ge i c.toNat with h | h
            · exact strLt_trans (pairwise_keyAt hs h hnlen) hpivot
            · have : i = c.toNat := by omega
              rw [this]
              exact hpivot
          unfold strLt at hlt
          omega
        · have := hI2 i (by omega) hil
          unfold strLt at this
          have := str_cmp_swap key (keyAt keys i)
          omega
        · have := hI2 i (by omega) hil
          unfold strLt at this
          have := str_cmp_swap key (keyAt keys i)
          omega
      · -- continue on the right half
        rw [if_neg (show ¬ e ≤ (if c + (e - c) / 2 = c then c + (e - c) / 2 + 1
          else c + (e - c) / 2) by omega)]
        rw [show (if c + (e - c) / 2 = c then c + (e - c) / 2 + 1
          else c + (e - c) / 2) = c + (e - c) / 2 by omega]
        refine ih c (c + (e - c) / 2) e hc0 (by omega) (by omega) hel rfl
          (by omega) ?_ hI2
        intro i hic
        exact strLt_trans (pairwise_keyAt hs (show i < c.toNat by omega) hnlen) hpivot

/-- On a strictly sorted key array `ptr_dict_find_pos` computes the
insertion index. -/
theorem ptr_dict_find_pos_eq (keys : List Str) (key : Str)
    (hs : keys.Pairwise strLt) :
    ptr_dict_find_pos keys key = ((insertionIndex keys key : Nat) : Int) := by
  unfold ptr_dict_find_pos
  by_cases h : keys.length = 0
  · rw [if_pos h]
    rw [List.length_eq_zero] at h
    subst h
    simp [insertionIndex]
  · rw [if_neg h]
    refine find_pos_loop_eq keys key hs (keys.length + 1) 0 ((keys.length : Int) / 2)
      (keys.length : Int) (by omega) (by omega) (by omega) (by omega) (by omega)
      (by omega) (fun i hi => absurd hi (by omega)) (fun i hie hil => absurd hil (by omega))

/-- On a strictly sorted key array `ptr_dict_find` agrees with the linear
search. -/
theorem ptr_dict_find_eq (keys : List Str) (key : Str)
    (hs : keys.Pairwise strLt) :
    ptr_dict_find keys key = linearFind keys key := by
  unfold ptr_dict_find
  by_cases h : keys.length = 0
  · rw [if_pos h]
    rw [List.length_eq_zero] at h
    subst h
    rfl
  · rw [if_neg h]
    refine find_loop_eq keys key hs (keys.length + 1) 0 ((keys.length : Int) / 2)
      (keys.length : Int) (by omega) (by omega) (by omega) (by omega) (by omega)
      (by omega) (fun i hi => absurd hi (by omega)) (fun i hie hil => absurd hil (by omega))

/-- Claim C2: on every strictly sorted key array and every probe key,
`ptr_dict_find_pos` (and the textually identical `ptr_list_dict_find_pos`)
returns the index at which the key would appear in the sorted key sequence:
it equals the reference insertion index; every entry strictly before the
returned position is strictly smaller than the key and every entry at or
after it is equal or strictly greater; it returns the index of the equal key
when one is present; it returns 0 for the empty map and `size` when the key
is greater than every existing key. -/
theorem find_pos_contract (keys : List Str) (key : Str) (hs : keys.Pairwise strLt) :
    ptr_dict_find_pos keys key = ((insertionIndex keys key : Nat) : Int)
    ∧ (∀ i : Nat, (i : Int) < ptr_dict_find_pos keys key → i < keys.length →
        strLt (keyAt keys i) key)
    ∧ (∀ i : Nat, ptr_dict_find_pos keys key ≤ (i : Int) → i < keys.length →
        key = keyAt keys i ∨ strLt key (keyAt keys i))
    ∧ (∀ i : Nat, i < keys.length → keyAt keys i = key →
        ptr_dict_find_pos keys key = (i : Int))
    ∧ (keys = [] → ptr_dict_find_pos keys key = 0)
    ∧ ((∀ k0 ∈ keys, strLt k0 key) → ptr_dict_find_pos keys key = (keys.length : Int)) := by
  have hmain := ptr_dict_find_pos_eq keys key hs
  refine ⟨hmain, ?_, ?_, ?_, ?_, ?_⟩
  · intro i hi _
    rw [hmain] at hi
    exact insertionIndex_before keys key i (by omega)
  · intro i hi hil
    rw [hmain] at hi
    have hii : insertionIndex keys key ≤ i := by omega
    rcases lt_trichotomy (str_cmp key (keyAt keys i)) 0 with hc | hc | hc
    · exact Or.inr hc
    · exact Or.inl ((str_cmp_eq_zero_iff _ _).mp hc)
    · exfalso
      have hilt : strLt (keyAt keys i) key := by
        unfold strLt
        have := str_cmp_swap key (keyAt keys i)
        omega
      have hnotlt := insertionIndex_at keys key (by omega)
      rcases Nat.lt_or_ge (insertionIndex keys key) i with h' | h'
      · exact hnotlt (strLt_trans (pairwise_keyAt hs h' hil) hilt)
      · have : insertionIndex keys key = i := by omega
        rw [this] at hnotlt
        exact hnotlt hilt
  · intro i hil hkey
    rw [hmain]
    have : insertionIndex keys key = i := by
      refine insertionIndex_eq_of keys key i (by omega)
        (fun j hj => ?_) (fun _ => ?_)
      · rw [← hkey]
        exact pairwise_keyAt hs hj hil
      · rw [hkey]
        exact strLt_irrefl key
    rw [this]
  · intro h
    subst h
    rfl
  · intro h
    rw [hmain]
    have : insertionIndex keys key = keys.length :=
      insertionIndex_eq_of keys key keys.length le_rfl
        (fun i hi => h _ (keyAt_mem keys i hi)) (fun h' => absurd h' (lt_irrefl _))
    rw [this]

/-- Witness for `find_pos_contract` at a concrete sorted two-entry map. -/
theorem find_pos_contract_witness :
    List.Pairwise strLt [some [97], some [99]]
    ∧ ptr_dict_find_pos [some [97], some [99]] (some [98])
      = ((insertionIndex [some [97], some [99]] (some [98]) : Nat) : Int) :=
  ⟨by decide, (find_pos_contract [some [97], some [99]] (some [98]) (by decide)).1⟩

/-- Claim C3: on every strictly sorted key array and every probe key, the
non-standard binary search `ptr_dict_find` (and the textually identical
`ptr_list_dict_find`; `str_dict_find` is a cast to the same code) agrees
with a plain linear search: it returns the index of the (unique) entry whose
key compares equal when one exists and -1 otherwise. -/
theorem find_contract (keys : List Str) (key : Str) (hs : keys.Pairwise strLt) :
    ptr_dict_find keys key = linearFind keys key
    ∧ (∀ i : Nat, i < keys.length → keyAt keys i = key →
        ptr_dict_find keys key = (i : Int))
    ∧ ((∀ k0 ∈ keys, k0 ≠ key) → ptr_dict_find keys key = -1) := by
  have hmain := ptr_dict_find_eq keys key hs
  refine ⟨hmain, ?_, ?_⟩
  · intro i hil hkey
    rw [hmain]
    refine linearFind_eq_of keys key i hil ?_ (fun j hj => ?_)
    · rw [hkey]
      exact str_cmp_self key
    · have := pairwise_keyAt hs hj hil
      rw [hkey] at this
      unfold strLt at this
      omega
  · intro h
    rw [hmain]
    refine linearFind_eq_neg_one keys key (fun i hil => ?_)
    intro hc
    exact h _ (keyAt_mem keys i hil) ((str_cmp_eq_zero_iff _ _).mp hc)

/-- Witness for `find_contract` at a concrete sorted two-entry map. -/
theorem find_contract_witness :
    List.Pairwise strLt [some [97], some [99]]
    ∧ ptr_dict_find [some [97], some [99]] (some [99])
      = linearFind [some [97], some [99]] (some [99]) :=
  ⟨by decide, (find_contract [some [97], some [99]] (some [99]) (by decide)).1⟩

/-- Entry list of a flat string-valued map `str_dict_t`. -/
abbrev StrDict := List (Str × Str)

/-- Entry list of a map-of-list `str_list_dict_t`. -/
abbrev StrListDict := List (Str × List Str)

/-- Entry list of a map-of-map `str_list_dict_dict_t`: each value is itself
a `str_list_dict_t` entry list. -/
abbrev StrListDictDict := List (Str × List (Str × List Str))

/-- Entry list of an opaque-pointer dictionary `ptr_dict_t`: `none` models a
NULL `void*` value, `some n` an opaque non-NULL pointer identity. -/
abbrev PtrDict := List (Str × Option Nat)

/-- The key sequence of an entry list. -/
def dictKeys {V : Type} (self : List (Str × V)) : List Str := self.map Prod.fst

/-- The sortedness invariant of §4.3: strictly ascending keys. -/
def sortedKeys {V : Type} (self : List (Str × V)) : Prop :=
  (dictKeys self).Pairwise strLt

instance {V : Type} (self : List (Str × V)) : Decidable (sortedKeys self) := by
  unfold sortedKeys
  infer_instance

/-- `str_dict_find` (systemctl-types.c:898-903): casts the entry array to
`ptr_dict_t` (identical key layout) and runs `ptr_dict_find`. -/
def str_dict_find (self : StrDict) (key : Str) : Int :=
  ptr_dict_find (dictKeys self) key

/-- `str_dict_find_pos` (systemctl-types.c:905-911): via `ptr_dict_find_pos`. -/
def str_dict_find_pos (self : StrDict) (key : Str) : Int :=
  ptr_dict_find_pos (dictKeys self) key

/-- `str_list_dict_find_pos` (systemctl-types.c:928-934): casts to
`ptr_list_dict_t` and runs `ptr_list_dict_find_pos`, whose loop is textually
identical to `ptr_dict_find_pos`. -/
def str_list_dict_find_pos (self : StrListDict) (key : Str) : Int :=
  ptr_dict_find_pos (dictKeys self) key

/-- `str_list_dict_dict_find_pos` (systemctl-types.c:936-942). -/
def str_list_dict_dict_find_pos (self : StrListDictDict) (key : Str) : Int :=
  ptr_dict_find_pos (dictKeys self) key

/-- `str_list_adds_all` (systemctl-types.c:1360-1371): moves every element
of the argument list onto the tail of the target, in order (a NULL or empty
argument is a no-op, matching `++ []`). -/
def str_list_adds_all (self value : List Str) : List Str := self ++ value

/-- `str_dict_adds` (systemctl-types.c:1430-1452): NULL key is a silent
no-op (the value is only released); an existing equal key has its value
replaced via `str_sets` (which keeps the old value when the incoming value
is NULL); otherwise the new entry is inserted at the computed position,
shifting later entries up by one. -/
def str_dict_adds (self : StrDict) (key : Str) (value : Str) : StrDict :=
  if key = none then self
  else
    let pos := str_dict_find_pos self key
    if pos < (self.length : Int) ∧ str_equal (self.getD pos.toNat (none, none)).1 key then
      if value = none then self
      else self.set pos.toNat ((self.getD pos.toNat (none, none)).1, value)
    else
      self.take pos.toNat ++ (key, value) :: self.drop pos.toNat

/-- `str_list_dict_adds` (systemctl-types.c:1461-1499): NULL key is a silent
no-op; an existing equal key has the incoming list's elements appended
(moved) onto the existing list via `str_list_adds_all`; otherwise the new
entry is inserted at the computed position.  The trailing runtime order
checks only log and do not change the state. -/
def str_list_dict_adds (self : StrListDict) (key : Str) (value : List Str) :
    StrListDict :=
  if key = none then self
  else
    let pos := str_list_dict_find_pos self key
    if pos < (self.length : Int) ∧ str_equal (self.getD pos.toNat (none, [])).1 key then
      self.set pos.toNat ((self.getD pos.toNat (none, [])).1,
        str_list_adds_all (self.getD pos.toNat (none, [])).2 value)
    else
      self.take pos.toNat ++ (key, value) :: self.drop pos.toNat

/-- `str_list_dict_dict_adds` (systemctl-types.c:1523-1558): NULL key is a
silent no-op; an existing equal key has its submap replaced wholesale via
`str_list_dict_sets` (old submap released); otherwise the new entry is
inserted at the computed position. -/
def str_list_dict_dict_adds (self : StrListDictDict) (key : Str)
    (value : List (Str × List Str)) : StrListDictDict :=
  if key = none then self
  else
    let pos := str_list_dict_dict_find_pos self key
    if pos < (self.length : Int) ∧ str_equal (self.getD pos.toNat (none, [])).1 key then
      self.set pos.toNat ((self.getD pos.toNat (none, [])).1, value)
    else
      self.take pos.toNat ++ (key, value) :: self.drop pos.toNat

/-- `ptr_dict_adds` (systemctl-types.c:1566-1589): NULL key is a silent
no-op; otherwise a new entry is inserted at the position computed by
`ptr_dict_find_pos` unconditionally — unlike the other `_adds` variants
there is no equal-key check. -/
def ptr_dict_adds (self : PtrDict) (key : Str) (value : Option Nat) : PtrDict :=
  if key = none then self
  else
    let pos := ptr_dict_find_pos (dictKeys self) key
    self.take pos.toNat ++ (key, value) :: self.drop pos.toNat

/-- `str_dict_del` (systemctl-types.c:1647-1672): locate via
`str_dict_find`; when found, drop that entry and shift the remaining
entries down by one; otherwise a silent no-op. -/
def str_dict_del (self : StrDict) (key : Str) : StrDict :=
  let pos := str_dict_find self key
  if 0 ≤ pos then self.take pos.toNat ++ self.drop (pos.toNat + 1)
  else self

/-- One flat-map mutation of §4.3. -/
inductive StrDictOp : Type
  | upsert : Str → Str → StrDictOp
  | remove : Str → StrDictOp

/-- Apply one flat-map mutation. -/
def str_dict_step (self : StrDict) : StrDictOp → StrDict
  | StrDictOp.upsert key value => str_dict_adds self key value
  | StrDictOp.remove key => str_dict_del self key

/-- Apply a sequence of flat-map mutations to the initially empty map. -/
def str_dict_run (ops : List StrDictOp) : StrDict :=
  ops.foldl str_dict_step []

/-- Apply a sequence of map-of-list upserts to the initially empty map. -/
def str_list_dict_run (ops : List (Str × List Str)) : StrListDict :=
  ops.foldl (fun m kv => str_list_dict_adds m kv.1 kv.2) []

/-- Apply a sequence of map-of-map upserts to the initially empty map. -/
def str_list_dict_dict_run (ops : List (Str × List (Str × List Str))) :
    StrListDictDict :=
  ops.foldl (fun m kv => str_list_dict_dict_adds m kv.1 kv.2) []

theorem str_equal_iff (a b : Str) : str_equal a b = true ↔ a = b := by
  unfold str_equal
  rw [beq_iff_eq]
  exact str_cmp_eq_zero_iff a b

theorem keyAt_of_mem {keys : List Str} {a : Str} (h : a ∈ keys) :
    ∃ i, i < keys.length ∧ keyAt keys i = a := by
  rcases List.mem_iff_getElem.mp h with ⟨i, hi, hg⟩
  exact ⟨i, hi, by rw [keyAt, List.getD_eq_getElem keys none hi, hg]⟩

theorem mem_take_keyAt {keys : List Str} {a : Str} {n : Nat}
    (h : a ∈ keys.take n) : ∃ i, i < n ∧ i < keys.length ∧ keyAt keys i = a := by
  induction keys generalizing n with
  | nil => simp at h
  | cons k0 rest ih =>
    cases n with
    | zero => simp at h
    | succ m =>
      rw [List.take_succ_cons] at h
      rcases List.mem_cons.mp h with h0 | h0
      · exact ⟨0, by omega, by simp, h0.symm⟩
      · rcases ih h0 with ⟨i, hi1, hi2, hi3⟩
        exact ⟨i + 1, by omega, by simpa using hi2, hi3⟩

theorem mem_drop_keyAt {keys : List Str} {a : Str} {n : Nat}
    (h : a ∈ keys.drop n) : ∃ i, n ≤ i ∧ i < keys.length ∧ keyAt keys i = a := by
  induction keys generalizing n with
  | nil => simp at h
  | cons k0 rest ih =>
    cases n with
    | zero =>
      rw [List.drop_zero] at h
      rcases keyAt_of_mem h with ⟨i, hi, hk⟩
      exact ⟨i, by omega, hi, hk⟩
    | succ m =>
      rw [List.drop_succ_cons] at h
      rcases ih h with ⟨i, hi1, hi2, hi3⟩
      exact ⟨i + 1, by omega, by simpa using hi2, hi3⟩

theorem list_set_getD_self {α : Type} (l : List α) (n : Nat) (d : α) :
    l.set n (l.getD n d) = l := by
  induction l generalizing n with
  | nil => rfl
  | cons x xs ih =>
    cases n with
    | zero => rfl
    | succ m =>
      have := ih m
      simpa [List.getD] using this

theorem keyAt_dictKeys {V : Type} (m : List (Str × V)) (i : Nat) (d : V) :
    keyAt (dictKeys m) i = (m.getD i (none, d)).1 := by
  induction m generalizing i with
  | nil => rfl
  | cons e rest ih =>
    cases i with
    | zero => rfl
    | succ j => simpa [dictKeys, keyAt] using ih j

/-- The take-append-drop sublist used by entry removal. -/
theorem take_drop_succ_sublist {α : Type} (l : List α) (n : Nat) :
    (l.take n ++ l.drop (n + 1)).Sublist l := by
  have h1 : l.drop (n + 1) = (l.drop n).tail := by
    rw [← List.drop_one, List.drop_drop]
  have h2 : (l.take n ++ l.drop (n + 1)).Sublist (l.take n ++ l.drop n) := by
    rw [h1]
    exact (List.tail_sublist (l.drop n)).append_left (l.take n)
  simpa [List.take_append_drop] using h2

/-- Replacing the value at an in-range position (keeping the stored key)
preserves sorted keys. -/
theorem sortedKeys_set_keep {V : Type} (m : List (Str × V)) (i : Nat) (v : V)
    (d : V) (hs : sortedKeys m) :
    sortedKeys (m.set i ((m.getD i (none, d)).1, v)) := by
  unfold sortedKeys dictKeys
  rw [List.map_set]
  rcases Nat.lt_or_ge i m.length with hi | hi
  · have : (m.map Prod.fst).getD i none = (m.getD i (none, d)).1 :=
      keyAt_dictKeys m i d
    rw [← this, list_set_getD_self]
    exact hs
  · rw [List.set_eq_of_length_le (by simpa using hi)]
    exact hs

/-- Inserting a fresh key at its insertion index preserves sorted keys. -/
theorem sortedKeys_insert {V : Type} (m : List (Str × V)) (key : Str) (v : V)
    (hs : sortedKeys m)
    (hne : insertionIndex (dictKeys m) key < m.length →
      keyAt (dictKeys m) (insertionIndex (dictKeys m) key) ≠ key) :
    sortedKeys (m.take (insertionIndex (dictKeys m) key)
      ++ (key, v) :: m.drop (insertionIndex (dictKeys m) key)) := by
  unfold sortedKeys dictKeys
  unfold dictKeys at hne
  set keys := m.map Prod.fst with hkeys
  have hlen : m.length = keys.length := by simp [hkeys]
  set n := insertionIndex keys key with hn
  rw [List.map_append, List.map_take, List.map_cons, List.map_drop, ← hkeys]
  -- the key is strictly below the entry currently at the insertion index
  have hkeyn : n < keys.length → strLt key (keyAt keys n) := by
    intro hnl
    have h1 := insertionIndex_at keys key hnl
    rw [← hn] at h1
    have h2 : keyAt keys n ≠ key := hne (by omega)
    unfold strLt at h1 ⊢
    have h3 := str_cmp_swap key (keyAt keys n)
    have h4 : str_cmp (keyAt keys n) key ≠ 0 := by
      intro h0
      exact h2 ((str_cmp_eq_zero_iff _ _).mp h0)
    omega
  rw [List.pairwise_append]
  refine ⟨List.Pairwise.sublist (List.take_sublist n keys) hs, ?_, ?_⟩
  · rw [List.pairwise_cons]
    refine ⟨fun b hb => ?_, List.Pairwise.sublist (List.drop_sublist n keys) hs⟩
    rcases mem_drop_keyAt hb with ⟨i, hni, hil, hkb⟩
    rcases Nat.lt_or_ge n i with h' | h'
    · exact strLt_trans (hkeyn (by omega)) (hkb ▸ pairwise_keyAt hs h' hil)
    · have : i = n := by omega
      subst this
      exact hkb ▸ hkeyn hil
  · intro x hx b hb
    rcases mem_take_keyAt hx with ⟨i, hin, hil, hkx⟩
    rcases List.mem_cons.mp hb with hb | hb
    · rw [hb, ← hkx]
      exact insertionIndex_before keys key i hin
    · rcases mem_drop_keyAt hb with ⟨j, hnj, hjl, hkb⟩
      exact hkx ▸ hkb ▸ pairwise_keyAt hs (by omega) hjl

theorem str_dict_adds_sorted (m : StrDict) (k v : Str) (hs : sortedKeys m) :
    sortedKeys (str_dict_adds m k v) := by
  simp only [str_dict_adds]
  by_cases hk : k = none
  · rw [if_pos hk]
    exact hs
  · rw [if_neg hk]
    have hpos : str_dict_find_pos m k
        = ((insertionIndex (dictKeys m) k : Nat) : Int) :=
      ptr_dict_find_pos_eq (dictKeys m) k hs
    rw [hpos, Int.toNat_natCast]
    by_cases hcond : ((insertionIndex (dictKeys m) k : Nat) : Int) < (m.length : Int)
        ∧ str_equal (m.getD (insertionIndex (dictKeys m) k) (none, none)).1 k = true
    · rw [if_pos hcond]
      by_cases hv : v = none
      · rw [if_pos hv]
        exact hs
      · rw [if_neg hv]
        exact sortedKeys_set_keep m _ v none hs
    · rw [if_neg hcond]
      refine sortedKeys_insert m k v hs (fun hlt => ?_)
      have hA : ((insertionIndex (dictKeys m) k : Nat) : Int) < (m.length : Int) := by
        exact_mod_cast hlt
      have hB := not_and.mp hcond hA
      rw [keyAt_dictKeys m _ none]
      intro heq
      exact hB ((str_equal_iff _ _).mpr heq)

theorem str_list_dict_adds_sorted (m : StrListDict) (k : Str) (v : List Str)
    (hs : sortedKeys m) : sortedKeys (str_list_dict_adds m k v) := by
  simp only [str_list_dict_adds]
  by_cases hk : k = none
  · rw [if_pos hk]
    exact hs
  · rw [if_neg hk]
    have hpos : str_list_dict_find_pos m k
        = ((insertionIndex (dictKeys m) k : Nat) : Int) :=
      ptr_dict_find_pos_eq (dictKeys m) k hs
    rw [hpos, Int.toNat_natCast]
    by_cases hcond : ((insertionIndex (dictKeys m) k : Nat) : Int) < (m.length : Int)
        ∧ str_equal (m.getD (insertionIndex (dictKeys m) k) (none, [])).1 k = true
    · rw [if_pos hcond]
      exact sortedKeys_set_keep m _ _ [] hs
    · rw [if_neg hcond]
      refine sortedKeys_insert m k v hs (fun hlt => ?_)
      have hA : ((insertionIndex (dictKeys m) k : Nat) : Int) < (m.length : Int) := by
        exact_mod_cast hlt
      have hB := not_and.mp hcond hA
      rw [keyAt_dictKeys m _ []]
      intro heq
      exact hB ((str_equal_iff _ _).mpr heq)

theorem str_list_dict_dict_adds_sorted (m : StrListDictDict) (k : Str)
    (v : List (Str × List Str)) (hs : sortedKeys m) :
    sortedKeys (str_list_dict_dict_adds m k v) := by
  simp only [str_list_dict_dict_adds]
  by_cases hk : k = none
  · rw [if_pos hk]
    exact hs
  · rw [if_neg hk]
    have hpos : str_list_dict_dict_find_pos m k
        = ((insertionIndex (dictKeys m) k : Nat) : Int) :=
      ptr_dict_find_pos_eq (dictKeys m) k hs
    rw [hpos, Int.toNat_natCast]
    by_cases hcond : ((insertionIndex (dictKeys m) k : Nat) : Int) < (m.length : Int)
        ∧ str_equal (m.getD (insertionIndex (dictKeys m) k) (none, [])).1 k = true
    · rw [if_pos hcond]
      exact sortedKeys_set_keep m _ _ [] hs
    · rw [if_neg hcond]
      refine sortedKeys_insert m k v hs (fun hlt => ?_)
      have hA : ((insertionIndex (dictKeys m) k : Nat) : Int) < (m.length : Int) := by
        exact_mod_cast hlt
      have hB := not_and.mp hcond hA
      rw [keyAt_dictKeys m _ []]
      intro heq
      exact hB ((str_equal_iff _ _).mpr heq)

theorem str_dict_del_sorted (m : StrDict) (k : Str) (hs : sortedKeys m) :
    sortedKeys (str_dict_del m k) := by
  simp only [str_dict_del]
  by_cases h : 0 ≤ str_dict_find m k
  · rw [if_pos h]
    unfold sortedKeys dictKeys
    rw [List.map_append, List.map_take, List.map_drop]
    exact List.Pairwise.sublist (take_drop_succ_sublist _ _) hs
  · rw [if_neg h]
    exact hs

/-- A fold over mutations preserves any invariant each mutation preserves. -/
theorem foldl_preserve {σ α : Type} (P : σ → Prop) (f : σ → α → σ)
    (h : ∀ s a, P s → P (f s a)) :
    ∀ (l : List α) (s : σ), P s → P (l.foldl f s) := by
  intro l
  induction l with
  | nil => exact fun s hp => hp
  | cons x xs ih => exact fun s hp => ih (f s x) (h s x hp)

/-- Claim C1: every sequence of upsert/remove operations applied to an
initially empty map leaves the key sequence strictly ascending under
byte-wise key comparison, with no duplicate keys — for the flat map under
`str_dict_adds`/`str_dict_del`, and for the two nested maps under their
upserts (the source defines no keyed removal for the nested maps).
Every intermediate state is itself the run of a prefix of the operation
sequence, so the invariant holds after each operation. -/
theorem sortedness_invariant :
    (∀ ops : List StrDictOp,
      sortedKeys (str_dict_run ops) ∧ (dictKeys (str_dict_run ops)).Nodup)
    ∧ (∀ ops : List (Str × List Str),
      sortedKeys (str_list_dict_run ops) ∧ (dictKeys (str_list_dict_run ops)).Nodup)
    ∧ (∀ ops : List (Str × List (Str × List Str)),
      sortedKeys (str_list_dict_dict_run ops)
        ∧ (dictKeys (str_list_dict_dict_run ops)).Nodup) := by
  have hstep : ∀ (m : StrDict) (op : StrDictOp),
      sortedKeys m → sortedKeys (str_dict_step m op) := by
    intro m op hs
    cases op with
    | upsert k v => exact str_dict_adds_sorted m k v hs
    | remove k => exact str_dict_del_sorted m k hs
  refine ⟨fun ops => ?_, fun ops => ?_, fun ops => ?_⟩
  · have hs : sortedKeys (str_dict_run ops) :=
      foldl_preserve sortedKeys str_dict_step hstep ops [] (by simp [sortedKeys, dictKeys])
    exact ⟨hs, List.Pairwise.imp (fun h => strLt_ne h) hs⟩
  · have hs : sortedKeys (str_list_dict_run ops) := by
      unfold str_list_dict_run
      exact foldl_preserve sortedKeys _
        (fun m kv hp => str_list_dict_adds_sorted m kv.1 kv.2 hp) ops []
        (by simp [sortedKeys, dictKeys])
    exact ⟨hs, List.Pairwise.imp (fun h => strLt_ne h) hs⟩
  · have hs : sortedKeys (str_list_dict_dict_run ops) := by
      unfold str_list_dict_dict_run
      exact foldl_preserve sortedKeys _
        (fun m kv hp => str_list_dict_dict_adds_sorted m kv.1 kv.2 hp) ops []
        (by simp [sortedKeys, dictKeys])
    exact ⟨hs, List.Pairwise.imp (fun h => strLt_ne h) hs⟩

/-- No stored entry has a NULL key. -/
def keysPresent {V : Type} (m : List (Str × V)) : Prop := ∀ e ∈ m, e.1 ≠ none

theorem keysPresent_set_keep {V : Type} (m : List (Str × V)) (i : Nat) (v : V)
    (d : V) (hp : keysPresent m) :
    keysPresent (m.set i ((m.getD i (none, d)).1, v)) := by
  rcases Nat.lt_or_ge i m.length with hi | hi
  · intro e he
    rcases List.mem_or_eq_of_mem_set he with h | h
    · exact hp e h
    · rw [h]
      have hmem : m.getD i (none, d) ∈ m := by
        rw [List.getD_eq_getElem m _ hi]
        exact List.getElem_mem hi
      exact hp (m.getD i (none, d)) hmem
  · rw [List.set_eq_of_length_le (by omega)]
    exact hp

theorem keysPresent_insert {V : Type} (m : List (Str × V)) (key : Str)
    (hk : key ≠ none) (v : V) (n : Nat) (hp : keysPresent m) :
    keysPresent (m.take n ++ (key, v) :: m.drop n) := by
  intro e he
  rcases List.mem_append.mp he with h | h
  · exact hp e (List.mem_of_mem_take h)
  · rcases List.mem_cons.mp h with h | h
    · rw [h]
      exact hk
    · exact hp e (List.mem_of_mem_drop h)

theorem str_dict_adds_present (m : StrDict) (k v : Str) (hp : keysPresent m) :
    keysPresent (str_dict_adds m k v) := by
  simp only [str_dict_adds]
  split_ifs with hk hcond hv
  · exact hp
  · exact hp
  · exact keysPresent_set_keep m _ v none hp
  · exact keysPresent_insert m k hk v _ hp

theorem str_list_dict_adds_present (m : StrListDict) (k : Str) (v : List Str)
    (hp : keysPresent m) : keysPresent (str_list_dict_adds m k v) := by
  simp only [str_list_dict_adds]
  split_ifs with hk hcond
  · exact hp
  · exact keysPresent_set_keep m _ _ [] hp
  · exact keysPresent_insert m k hk v _ hp

theorem str_list_dict_dict_adds_present (m : StrListDictDict) (k : Str)
    (v : List (Str × List Str)) (hp : keysPresent m) :
    keysPresent (str_list_dict_dict_adds m k v) := by
  simp only [str_list_dict_dict_adds]
  split_ifs with hk hcond
  · exact hp
  · exact keysPresent_set_keep m _ _ [] hp
  · exact keysPresent_insert m k hk v _ hp

theorem str_dict_del_present (m : StrDict) (k : Str) (hp : keysPresent m) :
    keysPresent (str_dict_del m k) := by
  simp only [str_dict_del]
  split_ifs with h
  · intro e he
    rcases List.mem_append.mp he with h' | h'
    · exact hp e (List.mem_of_mem_take h')
    · exact hp e (List.mem_of_mem_drop h')
  · exact hp

/-- Claim C10: upserting with a NULL key is a silent no-op on every map
variant (the consumed value is only released, which has no abstract
effect), and consequently no entry of a map built by any operation sequence
ever stores a NULL key. -/
theorem upsert_absent_key_noop :
    (∀ (m : StrDict) (v : Str), str_dict_adds m none v = m)
    ∧ (∀ (m : StrListDict) (v : List Str), str_list_dict_adds m none v = m)
    ∧ (∀ (m : StrListDictDict) (v : List (Str × List Str)),
        str_list_dict_dict_adds m none v = m)
    ∧ (∀ (m : PtrDict) (v : Option Nat), ptr_dict_adds m none v = m)
    ∧ (∀ ops : List StrDictOp, keysPresent (str_dict_run ops))
    ∧ (∀ ops : List (Str × List Str), keysPresent (str_list_dict_run ops))
    ∧ (∀ ops : List (Str × List (Str × List Str)),
        keysPresent (str_list_dict_dict_run ops)) := by
  refine ⟨fun m v => by simp [str_dict_adds], fun m v => by simp [str_list_dict_adds],
    fun m v => by simp [str_list_dict_dict_adds], fun m v => by simp [ptr_dict_adds],
    fun ops => ?_, fun ops => ?_, fun ops => ?_⟩
  · have hstep : ∀ (m : StrDict) (op : StrDictOp),
        keysPresent m → keysPresent (str_dict_step m op) := by
      intro m op hp
      cases op with
      | upsert k v => exact str_dict_adds_present m k v hp
      | remove k => exact str_dict_del_present m k hp
    exact foldl_preserve keysPresent str_dict_step hstep ops [] (by simp [keysPresent])
  · unfold str_list_dict_run
    exact foldl_preserve keysPresent _
      (fun m kv hp => str_list_dict_adds_present m kv.1 kv.2 hp) ops []
      (by simp [keysPresent])
  · unfold str_list_dict_dict_run
    exact foldl_preserve keysPresent _
      (fun m kv hp => str_list_dict_dict_adds_present m kv.1 kv.2 hp) ops []
      (by simp [keysPresent])

/-- On a sorted map, `ptr_dict_find_pos` run on the entry keys resolves to
the index of a present key. -/
theorem find_pos_at_present {V : Type} (m : List (Str × V)) (key : Str) (i : Nat)
    (d : V) (hs : sortedKeys m) (hi : i < m.length)
    (hk : (m.getD i (none, d)).1 = key) :
    ptr_dict_find_pos (dictKeys m) key = (i : Int) := by
  have hkey : keyAt (dictKeys m) i = key := by rw [keyAt_dictKeys m i d, hk]
  have hil : i < (dictKeys m).length := by simpa [dictKeys] using hi
  have hidx : insertionIndex (dictKeys m) key = i := by
    refine insertionIndex_eq_of (dictKeys m) key i (by omega)
      (fun j hj => ?_) (fun _ => ?_)
    · rw [← hkey]
      exact pairwise_keyAt hs hj hil
    · rw [hkey]
      exact strLt_irrefl key
  rw [ptr_dict_find_pos_eq (dictKeys m) key hs, hidx]

/-- On a sorted map, `ptr_dict_find` run on the entry keys resolves to the
index of a present key. -/
theorem find_at_present {V : Type} (m : List (Str × V)) (key : Str) (i : Nat)
    (d : V) (hs : sortedKeys m) (hi : i < m.length)
    (hk : (m.getD i (none, d)).1 = key) :
    ptr_dict_find (dictKeys m) key = (i : Int) := by
  have hkey : keyAt (dictKeys m) i = key := by rw [keyAt_dictKeys m i d, hk]
  have hil : i < (dictKeys m).length := by simpa [dictKeys] using hi
  rw [ptr_dict_find_eq (dictKeys m) key hs]
  refine linearFind_eq_of (dictKeys m) key i hil ?_ (fun j hj => ?_)
  · rw [hkey]
    exact str_cmp_self key
  · have := pairwise_keyAt hs hj hil
    rw [hkey] at this
    unfold strLt at this
    omega

/-- Claim C7: on every sorted map, removing an absent key is a silent no-op
(the map is left completely unchanged), while removing a key present at
index `i` deletes exactly that entry — the result is the prefix before `i`
followed by the entries after `i` shifted down by one — and shrinks the
size by one. -/
theorem str_dict_del_contract :
    (∀ (m : StrDict) (k : Str), sortedKeys m →
      (∀ e ∈ m, e.1 ≠ k) → str_dict_del m k = m)
    ∧ (∀ (m : StrDict) (k : Str) (i : Nat), sortedKeys m → i < m.length →
      (m.getD i (none, none)).1 = k →
      str_dict_del m k = m.take i ++ m.drop (i + 1)
        ∧ (str_dict_del m k).length = m.length - 1) := by
  constructor
  · intro m k hs habs
    have hfind : str_dict_find m k = -1 := by
      show ptr_dict_find (dictKeys m) k = -1
      rw [ptr_dict_find_eq (dictKeys m) k hs]
      refine linearFind_eq_neg_one (dictKeys m) k (fun i hil => ?_)
      intro hc
      have hmem : keyAt (dictKeys m) i ∈ dictKeys m := keyAt_mem _ i hil
      rcases List.mem_map.mp hmem with ⟨e, hem, hek⟩
      exact habs e hem (by rw [hek, (str_cmp_eq_zero_iff _ _).mp hc])
    simp only [str_dict_del, hfind]
    norm_num
  · intro m k i hs hi hk
    have hfind : str_dict_find m k = (i : Int) := find_at_present m k i none hs hi hk
    have hres : str_dict_del m k = m.take i ++ m.drop (i + 1) := by
      simp only [str_dict_del, hfind]
      rw [if_pos (by omega), Int.toNat_natCast]
    refine ⟨hres, ?_⟩
    rw [hres]
    simp
    omega

/-- Witness for `str_dict_del_contract`: removing the absent key "b" from
the sorted map \x7b"a": v, "c": v\x7d is a no-op; removing the present key "a"
deletes exactly that entry. -/
theorem str_dict_del_contract_witness :
    str_dict_del [(some [97], some [100]), (some [99], some [100])] (some [98])
      = [(some [97], some [100]), (some [99], some [100])]
    ∧ str_dict_del [(some [97], some [100]), (some [99], some [100])] (some [97])
      = List.take 0 [(some [97], some [100]), (some [99], some [100])]
        ++ List.drop 1 [(some [97], some [100]), (some [99], some [100])] :=
  ⟨str_dict_del_contract.1 _ _ (by decide) (by decide),
    (str_dict_del_contract.2 [(some [97], some [100]), (some [99], some [100])]
      (some [97]) 0 (by decide) (by decide) (by decide)).1⟩

theorem ptr_dict_find_pos_single (x : Str) : ptr_dict_find_pos [x] x = 0 := by
  have h := ptr_dict_find_pos_eq [x] x (by simp)
  rwa [show insertionIndex [x] x = 0 from by simp [insertionIndex, str_cmp_self]] at h

/-- Counterexample to claim C5 as stated: `ptr_dict_adds` never checks for
an existing equal key, so upserting the already-present key "a" into the
one-entry opaque-pointer map \x7b"a": p1\x7d inserts a duplicate entry — the map
ends with two entries at that key and size 2, not one entry with the new
value and unchanged size. -/
theorem ptr_dict_adds_duplicate_counterexample :
    ptr_dict_adds [(some [97], some 1)] (some [97]) (some 2)
      = [(some [97], some 2), (some [97], some 1)]
    ∧ ¬ (ptr_dict_adds [(some [97], some 1)] (some [97]) (some 2)).length = 1 := by
  constructor
  · decide
  · decide

/-- Replacing at a present key in a sorted flat string map: helper for
claim C5. -/
theorem str_dict_adds_replace_at (m : StrDict) (ks vs : List Nat) (i : Nat)
    (hs : sortedKeys m) (hi : i < m.length)
    (hk : (m.getD i (none, none)).1 = some ks) :
    str_dict_adds m (some ks) (some vs) = m.set i (some ks, some vs) := by
  have hpos : str_dict_find_pos m (some ks) = (i : Int) :=
    find_pos_at_present m (some ks) i none hs hi hk
  simp only [str_dict_adds, hpos]
  rw [if_neg (by simp : ¬ (some ks : Str) = none)]
  rw [if_pos ⟨by exact_mod_cast hi,
    by rw [Int.toNat_natCast, hk]; exact (str_equal_iff _ _).mpr rfl⟩]
  rw [if_neg (by simp : ¬ (some vs : Str) = none), Int.toNat_natCast, hk]

/-- Claim C5 (amended): for the flat string-valued map, upserting a key
that is already present at index `i` with a present (non-NULL) value leaves
the map with that one entry now holding the new value, the size unchanged;
in particular upserting the same key twice with present values `v1` then
`v2` on the initially empty map yields exactly one entry holding `v2`.
(The opaque-pointer variant `ptr_dict_adds` instead always inserts a new
entry — see the counterexample — and a NULL replacement value leaves the
old value in place.) -/
theorem flat_upsert_replaces :
    (∀ (m : StrDict) (ks vs : List Nat) (i : Nat),
      sortedKeys m → i < m.length → (m.getD i (none, none)).1 = some ks →
      str_dict_adds m (some ks) (some vs) = m.set i (some ks, some vs)
        ∧ (str_dict_adds m (some ks) (some vs)).length = m.length)
    ∧ (∀ k v1 v2 : List Nat,
      str_dict_adds (str_dict_adds [] (some k) (some v1)) (some k) (some v2)
        = [(some k, some v2)]) := by
  constructor
  · intro m ks vs i hs hi hk
    have hres := str_dict_adds_replace_at m ks vs i hs hi hk
    exact ⟨hres, by rw [hres]; simp⟩
  · intro k v1 v2
    have h1 : str_dict_adds [] (some k) (some v1) = [(some k, some v1)] := by
      simp [str_dict_adds, str_dict_find_pos, dictKeys, ptr_dict_find_pos]
    rw [h1]
    have := str_dict_adds_replace_at [(some k, some v1)] k v2 0
      (by simp [sortedKeys, dictKeys]) (by simp) (by simp)
    rw [this]
    rfl

/-- Witness for `flat_upsert_replaces` at the sorted map \x7b"a": v\x7d. -/
theorem flat_upsert_replaces_witness :
    (str_dict_adds [((some [97] : Str), (some [1] : Str))] (some [97]) (some [2])
        = [((some [97] : Str), (some [1] : Str))].set 0 (some [97], some [2])
      ∧ (str_dict_adds [((some [97] : Str), (some [1] : Str))] (some [97])
          (some [2])).length = 1)
    ∧ str_dict_adds (str_dict_adds [] (some [107]) (some [1]))
        (some [107]) (some [2]) = [(some [107], some [2])] :=
  ⟨flat_upsert_replaces.1 [(some [97], some [1])] [97] [2] 0
      (by decide) (by decide) (by decide),
    flat_upsert_replaces.2 [107] [1] [2]⟩

/-- Merging at a present key in a sorted map-of-list: helper for claim C6. -/
theorem str_list_dict_adds_merge_at (m : StrListDict) (ks : List Nat)
    (v : List Str) (i : Nat) (hs : sortedKeys m) (hi : i < m.length)
    (hk : (m.getD i (none, [])).1 = some ks) :
    str_list_dict_adds m (some ks) v
      = m.set i (some ks, (m.getD i (none, [])).2 ++ v) := by
  have hpos : str_list_dict_find_pos m (some ks) = (i : Int) :=
    find_pos_at_present m (some ks) i [] hs hi hk
  simp only [str_list_dict_adds, hpos]
  rw [if_neg (by simp : ¬ (some ks : Str) = none)]
  rw [if_pos ⟨by exact_mod_cast hi,
    by rw [Int.toNat_natCast, hk]; exact (str_equal_iff _ _).mpr rfl⟩]
  rw [Int.toNat_natCast, hk]
  rfl

/-- Replacing the submap at a present key in a sorted map-of-map: helper
for claim C6. -/
theorem str_list_dict_dict_adds_replace_at (m : StrListDictDict) (ks : List Nat)
    (v : List (Str × List Str)) (i : Nat) (hs : sortedKeys m) (hi : i < m.length)
    (hk : (m.getD i (none, [])).1 = some ks) :
    str_list_dict_dict_adds m (some ks) v = m.set i (some ks, v) := by
  have hpos : str_list_dict_dict_find_pos m (some ks) = (i : Int) :=
    find_pos_at_present m (some ks) i [] hs hi hk
  simp only [str_list_dict_dict_adds, hpos]
  rw [if_neg (by simp : ¬ (some ks : Str) = none)]
  rw [if_pos ⟨by exact_mod_cast hi,
    by rw [Int.toNat_natCast, hk]; exact (str_equal_iff _ _).mpr rfl⟩]
  rw [Int.toNat_natCast, hk]

/-- Claim C6: nested-map merge asymmetry.  For a sorted map-of-list,
upserting a list at a key already present at index `i` appends (moves) the
incoming list's elements onto the tail of the existing list in order — so
upserting `[a]` then `[b]` at the same key yields `[a, b]` — while for a
sorted map-of-map, upserting a submap at an already-present key replaces
the existing submap wholesale. -/
theorem nested_merge_asymmetry :
    (∀ (m : StrListDict) (ks : List Nat) (v : List Str) (i : Nat),
      sortedKeys m → i < m.length → (m.getD i (none, [])).1 = some ks →
      str_list_dict_adds m (some ks) v
        = m.set i (some ks, (m.getD i (none, [])).2 ++ v))
    ∧ (∀ (m : StrListDictDict) (ks : List Nat) (v : List (Str × List Str)) (i : Nat),
      sortedKeys m → i < m.length → (m.getD i (none, [])).1 = some ks →
      str_list_dict_dict_adds m (some ks) v = m.set i (some ks, v))
    ∧ (∀ k a b : List Nat,
      str_list_dict_adds (str_list_dict_adds [] (some k) [some a]) (some k) [some b]
        = [(some k, [some a, some b])]) := by
  refine ⟨str_list_dict_adds_merge_at, str_list_dict_dict_adds_replace_at, ?_⟩
  intro k a b
  have h1 : str_list_dict_adds [] (some k) [some a] = [(some k, [some a])] := by
    simp [str_list_dict_adds, str_list_dict_find_pos, dictKeys, ptr_dict_find_pos]
  rw [h1]
  have := str_list_dict_adds_merge_at [(some k, [some a])] k [some b] 0
    (by simp [sortedKeys, dictKeys]) (by simp) (by simp)
  rw [this]
  rfl

/-- Witness for `nested_merge_asymmetry` at concrete one-entry maps. -/
theorem nested_merge_asymmetry_witness :
    str_list_dict_adds [((some [97] : Str), [(some [1] : Str)])] (some [97]) [some [2]]
      = [(some [97], [some [1], some [2]])]
    ∧ str_list_dict_dict_adds [((some [97] : Str), ([] : List (Str × List Str)))]
        (some [97]) [(some [98], [])]
      = [(some [97], [(some [98], [])])] := by
  constructor
  · have := nested_merge_asymmetry.1 [(some [97], [some [1]])] [97] [some [2]] 0
      (by decide) (by decide) (by decide)
    rw [this]
    rfl
  · have := nested_merge_asymmetry.2.1 [(some [97], [])] [97] [(some [98], [])] 0
      (by decide) (by decide) (by decide)
    rw [this]
    rfl

/-- Counterexample to claim C4 as stated: `str_cmp` orders an absent (NULL)
string AFTER any present string, not before it — `str_cmp(NULL, "a")` is 1,
not the claimed -1. -/
theorem str_cmp_absent_counterexample :
    str_cmp none (some [97]) = 1 ∧ ¬ str_cmp none (some [97]) = -1 := by
  decide

/-- Claim C4 (amended): for all strings `a` and `b`, `str_cmp a b` returns a
value in \x7b-1, 0, 1\x7d (the embedding sign-normalizes libc `strcmp`, whose
raw magnitude the source never inspects), and an absent (NULL) string
orders AFTER any present string: `str_cmp none (some s) = 1` and
`str_cmp (some s) none = -1` for every present string `s`, with
`str_cmp none none = 0`. -/
theorem str_cmp_contract :
    (∀ a b : Str, str_cmp a b = -1 ∨ str_cmp a b = 0 ∨ str_cmp a b = 1)
    ∧ (∀ s : List Nat, str_cmp none (some s) = 1 ∧ str_cmp (some s) none = -1)
    ∧ str_cmp none none = 0 :=
  ⟨str_cmp_trichotomy, fun _ => ⟨rfl, rfl⟩, rfl⟩

/-- `str_cut` (systemctl-types.c:1676-1690): byte-range slice with
Python-style negative indices; out-of-range, empty or reversed ranges give
the empty string; an end index at or past the length is set to `size + 1`,
which copies the remaining bytes (plus the NUL terminator, invisible in the
byte-list abstraction). -/
def str_cut (self : Str) (a b : Int) : Str :=
  match self with
  | none => none
  | some l =>
    let size : Int := l.length
    let a1 := if a < 0 then size + a else a
    let b1 := if b < 0 then size + b else b
    if a1 < 0 ∨ b1 < 0 ∨ a1 ≥ size ∨ b1 < a1 then some []
    else
      let b2 := if b1 ≥ size then size + 1 else b1
      some ((l.drop a1.toNat).take (b2 - a1).toNat)

/-- With non-negative in-order indices `str_cut` is the Python slice
`l[a:b]`, i.e. drop `a` then take `b - a`. -/
theorem str_cut_eq_slice (l : List Nat) (a b : Nat) :
    str_cut (some l) (a : Int) (b : Int) = some ((l.drop a).take (b - a)) := by
  simp only [str_cut]
  rw [if_neg (by omega : ¬ (a : Int) < 0), if_neg (by omega : ¬ (b : Int) < 0)]
  by_cases hga : (a : Int) ≥ (l.length : Int)
  · rw [if_pos (by omega)]
    have hd : l.drop a = [] := List.drop_eq_nil_of_le (by exact_mod_cast hga)
    rw [hd, List.take_nil]
  · by_cases hba : (b : Int) < (a : Int)
    · rw [if_pos (by omega)]
      have : b - a = 0 := by omega
      rw [this, List.take_zero]
    · rw [if_neg (by omega)]
      by_cases hbs : (b : Int) ≥ (l.length : Int)
      · rw [if_pos hbs]
        have h1 : (((l.length : Int) + 1) - (a : Int)).toNat = l.length + 1 - a := by
          omega
        rw [h1, Int.toNat_natCast]
        have h2 : (l.drop a).length ≤ l.length + 1 - a := by
          simp
          omega
        rw [List.take_of_length_le h2]
        have h3 : (l.drop a).length ≤ b - a := by
          simp
          omega
        rw [List.take_of_length_le h3]
      · rw [if_neg hbs]
        have h1 : ((b : Int) - (a : Int)).toNat = b - a := by omega
        rw [h1, Int.toNat_natCast]

/-- Claim C9: slice semantics of `str_cut`.  The three concrete examples of
the spec; the general Python-slice characterization for non-negative
indices (out-of-range, empty and reversed ranges all collapse to the empty
string, an end index past the length is clamped); negative start/end
indices within range count from the end of the string; and a start or end
index below `-length` stays negative after normalization, so the range is
out of range and yields the empty string (e.g. `cut("hello", -100, 2)`). -/
theorem str_cut_contract :
    str_cut (some [104, 101, 108, 108, 111]) (-3) (-1) = some [108, 108]
    ∧ str_cut (some [104, 101, 108, 108, 111]) 1 100 = some [101, 108, 108, 111]
    ∧ str_cut (some [104, 101, 108, 108, 111]) 3 1 = some []
    ∧ (∀ (l : List Nat) (a b : Nat),
        str_cut (some l) (a : Int) (b : Int) = some ((l.drop a).take (b - a)))
    ∧ (∀ (l : List Nat) (a b : Int), -(l.length : Int) ≤ a → a < 0 →
        str_cut (some l) a b = str_cut (some l) ((l.length : Int) + a) b)
    ∧ (∀ (l : List Nat) (a b : Int), -(l.length : Int) ≤ b → b < 0 →
        str_cut (some l) a b = str_cut (some l) a ((l.length : Int) + b))
    ∧ str_cut (some [104, 101, 108, 108, 111]) (-100) 2 = some []
    ∧ (∀ (l : List Nat) (a b : Int), a < -(l.length : Int) →
        str_cut (some l) a b = some [])
    ∧ (∀ (l : List Nat) (a b : Int), b < -(l.length : Int) →
        str_cut (some l) a b = some []) := by
  refine ⟨by decide, by decide, by decide, str_cut_eq_slice, ?_, ?_, by decide, ?_, ?_⟩
  · intro l a b h1 h2
    simp only [str_cut]
    rw [if_pos h2, if_neg (by omega : ¬ (l.length : Int) + a < 0)]
  · intro l a b h1 h2
    simp only [str_cut]
    rw [if_pos h2, if_neg (by omega : ¬ (l.length : Int) + b < 0)]
  · intro l a b h
    simp only [str_cut]
    rw [if_pos (show a < 0 by omega)]
    rw [if_pos (Or.inl (show (l.length : Int) + a < 0 by omega))]
  · intro l a b h
    simp only [str_cut]
    rw [if_pos (show b < 0 by omega)]
    rw [if_pos (Or.inr (Or.inl (show (l.length : Int) + b < 0 by omega)))]

/-- Witness for `str_cut_contract`: the slice form on "hello"[1:3] and the
negative-index reductions on "hello"[-3:-1]. -/
theorem str_cut_contract_witness :
    str_cut (some [104, 101, 108, 108, 111]) ((1 : Nat) : Int) ((3 : Nat) : Int)
      = some (([104, 101, 108, 108, 111].drop 1).take (3 - 1))
    ∧ str_cut (some [104, 101, 108, 108, 111]) (-3) (-1)
      = str_cut (some [104, 101, 108, 108, 111]) ((5 : Int) + (-3)) (-1)
    ∧ str_cut (some [104, 101, 108, 108, 111]) (-100) 2 = some [] :=
  ⟨str_cut_contract.2.2.2.1 [104, 101, 108, 108, 111] 1 3,
    str_cut_contract.2.2.2.2.1 [104, 101, 108, 108, 111] (-3) (-1)
      (by norm_num) (by norm_num),
    str_cut_contract.2.2.2.2.2.2.2.1 [104, 101, 108, 108, 111] (-100) 2
      (by norm_num)⟩

/-- Loop of `str_split` (systemctl-types.c:1800-1817): skip delimiter
bytes, then collect the maximal run of non-delimiter bytes as one token
(`str_cut(text, a, x)`), and continue after the run. -/
def split_loop (delim : Nat) : List Nat → List (List Nat)
  | [] => []
  | x :: xs =>
    if x = delim then split_loop delim xs
    else (x :: xs.takeWhile (· != delim)) :: split_loop delim (xs.dropWhile (· != delim))
termination_by l => l.length
decreasing_by
  · simp only [List.length_cons]
    omega
  · simp only [List.length_cons]
    have h := (List.dropWhile_sublist (fun y => y != delim) (l := xs)).length_le
    omega

/-- `str_split` (systemctl-types.c:1800-1817): eagerly materialized
sequence of the non-empty tokens (a NULL text has length 0 and yields no
tokens). -/
def str_split (text : Str) (delim : Nat) : List Str :=
  (split_loop delim (text.getD [])).map some

/-- Interleaving stage of `str_list_join` (systemctl-types.c:1828-1849):
keep the present entries in order, with a copy of the delimiter before
every kept entry except the first (the `x` counter of the source is the
`started` flag). -/
def str_list_join_parts (delim : Str) : Bool → List Str → List Str
  | _, [] => []
  | started, none :: rest => str_list_join_parts delim started rest
  | true, some t :: rest => delim :: some t :: str_list_join_parts delim true rest
  | false, some t :: rest => some t :: str_list_join_parts delim true rest

/-- `str_copy_str_list` (systemctl-types.c:1078-1093): concatenates the
bytes of all entries in order; a NULL entry contributes nothing. -/
def str_copy_str_list (l : List Str) : List Nat :=
  l.foldr (fun s acc => s.getD [] ++ acc) []

/-- `str_list_join` (systemctl-types.c:1828-1849): build the interleaved
entry list, then concatenate it with `str_copy_str_list`.  The result is
always a present (allocated) string. -/
def str_list_join (self : List Str) (delim : Str) : Str :=
  some (str_copy_str_list (str_list_join_parts delim false self))

theorem split_loop_tokens (d : Nat) :
    ∀ (n : Nat) (l : List Nat), l.length ≤ n →
    ∀ t ∈ split_loop d l, t ≠ [] ∧ d ∉ t := by
  intro n
  induction n with
  | zero =>
    intro l hl t ht
    have hnil : l = [] := List.length_eq_zero.mp (by omega)
    subst hnil
    simp [split_loop] at ht
  | succ m ih =>
    intro l hl t ht
    cases l with
    | nil => simp [split_loop] at ht
    | cons x xs =>
      by_cases hx : x = d
      · rw [split_loop, if_pos hx] at ht
        exact ih xs (by simpa using hl) t ht
      · rw [split_loop, if_neg hx] at ht
        rcases List.mem_cons.mp ht with h | h
        · subst h
          refine ⟨by simp, ?_⟩
          intro hd
          rcases List.mem_cons.mp hd with h' | h'
          · exact hx h'.symm
          · exact absurd (List.mem_takeWhile_imp h') (by simp)
        · have hlen : (xs.dropWhile (· != d)).length ≤ m := by
            have := (List.dropWhile_sublist (fun y => y != d) (l := xs)).length_le
            simp at hl
            omega
          exact ih _ hlen t h

theorem str_copy_cons (s : Str) (L : List Str) :
    str_copy_str_list (s :: L) = s.getD [] ++ str_copy_str_list L := rfl

theorem join_parts_true_head (delim : Str) (u : List Nat) (R : List Str) :
    str_list_join_parts delim true (some u :: R)
      = delim :: str_list_join_parts delim false (some u :: R) := rfl

theorem dropWhile_head_not {α : Type} {p : α → Bool} :
    ∀ {l : List α} {r : α} {rs : List α}, l.dropWhile p = r :: rs → p r = false := by
  intro l
  induction l with
  | nil =>
    intro r rs h
    simp [List.dropWhile] at h
  | cons x xs ih =>
    intro r rs h
    by_cases hp : p x
    · rw [List.dropWhile_cons, if_pos hp] at h
      exact ih h
    · rw [List.dropWhile_cons, if_neg hp] at h
      rw [← (List.cons.injEq .. ).mp h |>.1]
      simpa using hp


theorem split_join_roundtrip (d : Nat) :
    ∀ (n : Nat) (l : List Nat), l.length ≤ n →
    l.head? ≠ some d → l.getLast? ≠ some d →
    l.Chain' (fun p q => ¬ (p = d ∧ q = d)) →
    str_copy_str_list
      (str_list_join_parts (some [d]) false ((split_loop d l).map some)) = l := by
  intro n
  induction n with
  | zero =>
    intro l hl _ _ _
    have hnil : l = [] := List.length_eq_zero.mp (by omega)
    subst hnil
    rw [show split_loop d ([] : List Nat) = [] from by rw [split_loop]]
    rfl
  | succ m ih =>
    intro l hl hhead hlast hchain
    cases l with
    | nil =>
      rw [show split_loop d ([] : List Nat) = [] from by rw [split_loop]]
      rfl
    | cons x xs =>
      have hx : x ≠ d := fun h => hhead (by simp [h])
      rw [split_loop, if_neg hx]
      have hxs : xs.takeWhile (· != d) ++ xs.dropWhile (· != d) = xs :=
        List.takeWhile_append_dropWhile _ _
      cases hrest : xs.dropWhile (· != d) with
      | nil =>
        rw [hrest, List.append_nil] at hxs
        rw [show split_loop d ([] : List Nat) = [] from by rw [split_loop]]
        simp [str_list_join_parts, str_copy_str_list, hxs]
      | cons r rs =>
        have hr : r = d := by simpa using dropWhile_head_not hrest
        rw [hr] at hrest ⊢
        -- the string decomposes as token ++ delimiter ++ tail
        have hdecomp : x :: xs = (x :: xs.takeWhile (· != d)) ++ (d :: rs) := by
          conv_lhs => rw [← hxs]
          rw [hrest]
          simp
        have hlast2 : (x :: xs).getLast? = (d :: rs).getLast? := by
          rw [hdecomp, List.getLast?_append]
          have hsome : ((d : Nat) :: rs).getLast?.isSome := by
            rw [List.getLast?_isSome]
            simp
          exact Option.or_of_isSome hsome
        cases rs with
        | nil =>
          exact absurd (by rw [hlast2]; simp) hlast
        | cons y ys =>
          have hchain2 : List.Chain' (fun p q => ¬ (p = d ∧ q = d)) (d :: y :: ys) := by
            refine List.Chain'.suffix hchain ?_
            rw [hdecomp]
            exact List.suffix_append _ _
          have hy : y ≠ d := by
            have h1 := (List.chain'_cons.mp hchain2).1
            intro h
            exact h1 ⟨rfl, h⟩
          have hchain3 : List.Chain' (fun p q => ¬ (p = d ∧ q = d)) (y :: ys) :=
            (List.chain'_cons.mp hchain2).2
          have hlast3 : (y :: ys).getLast? ≠ some d := by
            rw [List.getLast?_cons_cons] at hlast2
            rw [← hlast2]
            exact hlast
          have hlen : (y :: ys).length ≤ m := by
            have h1 := (List.dropWhile_sublist (fun z => z != d) (l := xs)).length_le
            rw [hrest] at h1
            simp only [List.length_cons] at h1 hl ⊢
            omega
          rw [show split_loop d (d :: y :: ys) = split_loop d (y :: ys) from by
            rw [split_loop, if_pos rfl]]
          have hih := ih (y :: ys) hlen (by simpa using hy) hlast3 hchain3
          rw [split_loop, if_neg hy] at hih ⊢
          simp only [List.map_cons] at hih ⊢
          rw [show str_list_join_parts (some [d]) false
              (some (x :: xs.takeWhile (· != d))
                :: some (y :: ys.takeWhile (· != d))
                :: ((split_loop d (ys.dropWhile (· != d))).map some))
            = some (x :: xs.takeWhile (· != d))
              :: str_list_join_parts (some [d]) true
                (some (y :: ys.takeWhile (· != d))
                  :: ((split_loop d (ys.dropWhile (· != d))).map some)) from rfl]
          rw [join_parts_true_head, str_copy_cons, str_copy_cons, hih]
          simp only [Option.getD_some]
          rw [hdecomp]
          simp


theorem split_loop_nil (d : Nat) : split_loop d [] = [] := by
  rw [split_loop]

theorem split_loop_cons_delim (d : Nat) (xs : List Nat) :
    split_loop d (d :: xs) = split_loop d xs := by
  rw [split_loop, if_pos rfl]

theorem split_loop_cons_tok (d x : Nat) (xs : List Nat) (hx : x ≠ d) :
    split_loop d (x :: xs)
      = (x :: xs.takeWhile (· != d)) :: split_loop d (xs.dropWhile (· != d)) := by
  rw [split_loop, if_neg hx]

/-- `str_split` splits exactly at every delimiter occurrence: splitting
`u ++ [d] ++ v` yields the tokens of `u` followed by the tokens of `v`, for
all byte strings `u` and `v`. -/
theorem split_loop_append (d : Nat) :
    ∀ (n : Nat) (u v : List Nat), u.length ≤ n →
    split_loop d (u ++ d :: v) = split_loop d u ++ split_loop d v := by
  intro n
  induction n with
  | zero =>
    intro u v hl
    have hu : u = [] := List.length_eq_zero.mp (by omega)
    subst hu
    rw [List.nil_append, split_loop_cons_delim, split_loop_nil, List.nil_append]
  | succ m ih =>
    intro u v hl
    cases u with
    | nil =>
      rw [List.nil_append, split_loop_cons_delim, split_loop_nil, List.nil_append]
    | cons x u2 =>
      by_cases hx : x = d
      · rw [hx, List.cons_append, split_loop_cons_delim, split_loop_cons_delim]
        exact ih u2 v (by simpa using hl)
      · rw [List.cons_append, split_loop_cons_tok d x _ hx, split_loop_cons_tok d x u2 hx]
        cases hdw : u2.dropWhile (· != d) with
        | nil =>
          have hall : ∀ y ∈ u2, ((y : Nat) != d) = true :=
            List.dropWhile_eq_nil_iff.mp hdw
          have htw : u2.takeWhile (· != d) = u2 :=
            List.takeWhile_eq_self_iff.mpr hall
          have htw2 : (u2 ++ d :: v).takeWhile (· != d)
              = u2 ++ (d :: v).takeWhile (· != d) := by
            rw [List.takeWhile_append, if_pos (by rw [htw])]
          have hdw2 : (u2 ++ d :: v).dropWhile (· != d)
              = (d :: v).dropWhile (· != d) := by
            rw [List.dropWhile_append, if_pos (by rw [hdw]; rfl)]
          rw [htw2, hdw2, htw]
          rw [show ((d : Nat) :: v).takeWhile (· != d) = [] from by
            rw [List.takeWhile_cons]; simp]
          rw [show ((d : Nat) :: v).dropWhile (· != d) = d :: v from by
            rw [List.dropWhile_cons]; simp]
          rw [split_loop_cons_delim, split_loop_nil]
          simp
        | cons r w =>
          have hr : r = d := by simpa using dropWhile_head_not hdw
          rw [hr] at hdw
          have hlen0 := congrArg List.length (List.takeWhile_append_dropWhile (· != d) u2)
          rw [hdw] at hlen0
          simp only [List.length_append, List.length_cons] at hlen0
          have hne : ¬ (u2.takeWhile (· != d)).length = u2.length := by omega
          have htw2 : (u2 ++ d :: v).takeWhile (· != d) = u2.takeWhile (· != d) := by
            rw [List.takeWhile_append, if_neg hne]
          have hdw2 : (u2 ++ d :: v).dropWhile (· != d) = (d :: w) ++ d :: v := by
            rw [List.dropWhile_append, if_neg (by rw [hdw]; simp), hdw]
          have hwlen : w.length ≤ m := by
            have hsub := (List.dropWhile_sublist (fun z => z != d) (l := u2)).length_le
            rw [hdw] at hsub
            simp only [List.length_cons] at hsub hl
            omega
          rw [htw2, hdw2]
          rw [show ((d : Nat) :: w) ++ d :: v = d :: (w ++ d :: v) from rfl]
          rw [split_loop_cons_delim, ih w v hwlen, hr, split_loop_cons_delim]
          simp

/-- A non-empty delimiter-free byte string is its own single token. -/
theorem split_loop_single (d : Nat) (t : List Nat) (hne : t ≠ []) (hd : d ∉ t) :
    split_loop d t = [t] := by
  cases t with
  | nil => exact absurd rfl hne
  | cons x xs =>
    have hx : x ≠ d := fun h => hd (by rw [h]; exact List.mem_cons_self _ _)
    have hall : ∀ y ∈ xs, ((y : Nat) != d) = true := by
      intro y hy
      have : y ≠ d := fun h => hd (by rw [← h]; exact List.mem_cons_of_mem _ hy)
      simpa using this
    rw [split_loop_cons_tok d x xs hx, List.takeWhile_eq_self_iff.mpr hall,
      List.dropWhile_eq_nil_iff.mpr hall, split_loop_nil]

/-- The concatenation of the tokens is exactly the non-delimiter bytes of
the input, in order. -/
theorem split_loop_flatten (d : Nat) :
    ∀ (n : Nat) (l : List Nat), l.length ≤ n →
    (split_loop d l).flatten = l.filter (· != d) := by
  intro n
  induction n with
  | zero =>
    intro l hl
    have hnil : l = [] := List.length_eq_zero.mp (by omega)
    subst hnil
    rw [split_loop_nil]
    rfl
  | succ m ih =>
    intro l hl
    cases l with
    | nil =>
      rw [split_loop_nil]
      rfl
    | cons x xs =>
      by_cases hx : x = d
      · rw [hx, split_loop_cons_delim, List.filter_cons,
          if_neg (by simp), ih xs (by simpa using hl)]
      · rw [split_loop_cons_tok d x xs hx, List.flatten_cons, List.filter_cons,
          if_pos (by simpa using hx)]
        have hrec : (split_loop d (xs.dropWhile (· != d))).flatten
            = (xs.dropWhile (· != d)).filter (· != d) := by
          refine ih _ ?_
          have := (List.dropWhile_sublist (fun y => y != d) (l := xs)).length_le
          simp only [List.length_cons] at hl
          omega
        rw [hrec]
        conv_rhs => rw [← List.takeWhile_append_dropWhile (· != d) xs]
        have hfit : List.filter (· != d) (xs.takeWhile (· != d))
            = xs.takeWhile (· != d) := by
          rw [List.filter_eq_self]
          intro y hy
          have h2 := List.mem_takeWhile_imp hy
          exact h2
        rw [List.filter_append, hfit]
        simp

/-- Claim C8: `str_split` yields exactly the non-empty maximal runs of
non-delimiter bytes of the input, in order, and `str_list_join` inverts it
on delimiter-normalized input.  The exactness holds for every input string
and is pinned by four laws that uniquely determine the maximal-run
decomposition: (1) every produced token is a present, non-empty string
containing no delimiter byte; (2) splitting distributes over every
delimiter occurrence, so consecutive, leading and trailing delimiters
collapse and produce no tokens; (3) a non-empty delimiter-free string is
its own single token, and the empty string has no tokens; (4) the
concatenation of the tokens is exactly the subsequence of non-delimiter
bytes of the input, in order.  Finally, `str_list_join (str_split s d) [d]`
reconstructs `s` whenever `s` has no leading, trailing, or doubled
delimiter. -/
theorem split_join_contract :
    (∀ (s : Str) (d : Nat), ∀ t ∈ str_split s d,
      ∃ bytes, t = some bytes ∧ bytes ≠ [] ∧ d ∉ bytes)
    ∧ (∀ (d : Nat) (u v : List Nat),
      str_split (some (u ++ d :: v)) d = str_split (some u) d ++ str_split (some v) d)
    ∧ (∀ (d : Nat) (t : List Nat), t ≠ [] → d ∉ t → str_split (some t) d = [some t])
    ∧ (∀ d : Nat, str_split (some []) d = [])
    ∧ (∀ (d : Nat) (l : List Nat),
      (split_loop d l).flatten = l.filter (· != d))
    ∧ (∀ (l : List Nat) (d : Nat),
      l.head? ≠ some d → l.getLast? ≠ some d →
      l.Chain' (fun p q => ¬ (p = d ∧ q = d)) →
      str_list_join (str_split (some l) d) (some [d]) = some l) := by
  refine ⟨?_, ?_, ?_, ?_, ?_, ?_⟩
  · intro s d t ht
    unfold str_split at ht
    rcases List.mem_map.mp ht with ⟨bytes, hb, hbe⟩
    have h := split_loop_tokens d (s.getD []).length (s.getD []) le_rfl bytes hb
    exact ⟨bytes, hbe.symm, h.1, h.2⟩
  · intro d u v
    unfold str_split
    rw [show ((some (u ++ d :: v) : Str)).getD [] = u ++ d :: v from rfl,
      show ((some u : Str)).getD [] = u from rfl,
      show ((some v : Str)).getD [] = v from rfl]
    rw [split_loop_append d u.length u v le_rfl, List.map_append]
  · intro d t hne hd
    unfold str_split
    rw [show ((some t : Str)).getD [] = t from rfl, split_loop_single d t hne hd]
    rfl
  · intro d
    unfold str_split
    rw [show ((some [] : Str)).getD [] = [] from rfl, split_loop_nil]
    rfl
  · intro d l
    exact split_loop_flatten d l.length l le_rfl
  · intro l d h1 h2 h3
    unfold str_list_join str_split
    rw [show ((some l : Str)).getD [] = l from rfl]
    rw [split_join_roundtrip d l.length l le_rfl h1 h2 h3]

/-- Witness for `split_join_contract`: the token of splitting "a" on a
space, the distribution law and single-token law at "a b", and the round
trip on "a b". -/
theorem split_join_contract_witness :
    (∃ bytes, (some [97] : Str) = some bytes ∧ bytes ≠ [] ∧ 32 ∉ bytes)
    ∧ str_split (some ([97] ++ 32 :: [98])) 32
      = str_split (some [97]) 32 ++ str_split (some [98]) 32
    ∧ str_split (some [97]) 32 = [some [97]]
    ∧ str_list_join (str_split (some [97, 32, 98]) 32) (some [32])
      = some [97, 32, 98] := by
  have hsingle : str_split (some [97]) 32 = [some [97]] :=
    split_join_contract.2.2.1 32 [97] (by decide) (by decide)
  refine ⟨split_join_contract.1 (some [97]) 32 (some [97]) ?_,
    split_join_contract.2.1 32 [97] [98], hsingle,
    split_join_contract.2.2.2.2.2 [97, 32, 98] 32 (by decide) (by decide) ?_⟩
  · rw [hsingle]
    simp
  · simp [List.chain'_cons]
